import Mathlib

/-!
Verification of the zero-crossing estimation routines of the
MEP-regime-ABM analysis scripts.

Each script embeds the same "scan adjacent samples, interpolate on sign
change" procedure with small variations (ALL / FIRST / LAST crossings).
A series is modelled as a list of `(x, y)` pairs over `ℚ` (the scripts
pass two parallel float arrays of equal length; we pair them).  Python
floats are modelled as exact rationals, so the claims are settled for the
ideal real-number semantics of the formulas in the source.
-/

namespace SigmaCumEnd

/-- Embedding of the loop body of `zero_crossings_linear_interp` from
`src/scripts/zero_crossings_sigmaCumEnd_RMST.py` (lines 20-41): scan the
remaining series, `i` being the segment index of the first remaining
sample.  For each adjacent pair: if `y[i] == 0` record `(x[i], i)` and
continue; else if `y[i]*y[i+1] < 0` record the linearly interpolated
crossing `(x[i] + (x[i+1]-x[i])*(-y[i])/(y[i+1]-y[i]), i)`; else record
nothing. -/
def zcGo : List (ℚ × ℚ) → ℕ → List (ℚ × ℕ)
  | p :: q :: rest, i =>
      if p.2 = 0 then (p.1, i) :: zcGo (q :: rest) (i + 1)
      else if p.2 * q.2 < 0 then
        (p.1 + (q.1 - p.1) * (-p.2) / (q.2 - p.2), i) :: zcGo (q :: rest) (i + 1)
      else zcGo (q :: rest) (i + 1)
  | _, _ => []

/-- `zero_crossings_linear_interp` (ALL mode): the full scan starting at
segment index 0, returning the list of `(x0, i)` crossings. -/
def zero_crossings_linear_interp (s : List (ℚ × ℚ)) : List (ℚ × ℕ) :=
  zcGo s 0

/-- Division-checked variant of `zcGo`: identical scan, but the
interpolated branch first tests its denominator `y[i+1] - y[i]` and
signals failure (`none`, the division-by-zero error branch) if it is
zero. -/
def zcGoChecked : List (ℚ × ℚ) → ℕ → Option (List (ℚ × ℕ))
  | p :: q :: rest, i =>
      if p.2 = 0 then
        (zcGoChecked (q :: rest) (i + 1)).map ((p.1, i) :: ·)
      else if p.2 * q.2 < 0 then
        if q.2 - p.2 = 0 then none
        else
          (zcGoChecked (q :: rest) (i + 1)).map
            ((p.1 + (q.1 - p.1) * (-p.2) / (q.2 - p.2), i) :: ·)
      else zcGoChecked (q :: rest) (i + 1)
  | _, _ => some []

/-- Division-checked ALL-mode scan. -/
def zero_crossings_checked (s : List (ℚ × ℚ)) : Option (List (ℚ × ℕ)) :=
  zcGoChecked s 0

/-- The per-segment branch conditions of the scan, as a predicate on the
two samples of a segment and a candidate crossing location: either the
exact-zero branch fires (`y[i] == 0`, crossing at `x[i]`), or the
sign-change branch fires (`y[i] != 0` and `y[i]*y[i+1] < 0`, crossing at
the interpolated point). -/
def segHit (p q : ℚ × ℚ) (x0 : ℚ) : Prop :=
  (p.2 = 0 ∧ x0 = p.1) ∨
  (p.2 ≠ 0 ∧ p.2 * q.2 < 0 ∧ x0 = p.1 + (q.1 - p.1) * (-p.2) / (q.2 - p.2))

end SigmaCumEnd

namespace Fig23

/-- Embedding of `first_zero_crossing_linear` from
`src/scripts/make_fig23.py` (lines 9-18): return on the first hit
(exact zero sample or sign change), `none` if the scan finishes without
a hit. -/
def first_zero_crossing_linear : List (ℚ × ℚ) → Option ℚ
  | p :: q :: rest =>
      if p.2 = 0 then some p.1
      else if p.2 * q.2 < 0 then some (p.1 + (q.1 - p.1) * (-p.2) / (q.2 - p.2))
      else first_zero_crossing_linear (q :: rest)
  | _ => none

end Fig23

namespace AERMST

/-- Embedding of `first_zero_crossing_linear` from
`src/scripts/zero_crossings_AE_RMST.py` (lines 7-15); the Python body is
the same loop as the `make_fig23.py` copy. -/
def first_zero_crossing_linear : List (ℚ × ℚ) → Option ℚ
  | p :: q :: rest =>
      if p.2 = 0 then some p.1
      else if p.2 * q.2 < 0 then some (p.1 + (q.1 - p.1) * (-p.2) / (q.2 - p.2))
      else first_zero_crossing_linear (q :: rest)
  | _ => none

end AERMST

namespace Fig6

/-- Embedding of `first_zero_crossing` from `src/scripts/make_fig6.py`
(lines 14-24); again the same return-on-first-hit loop. -/
def first_zero_crossing : List (ℚ × ℚ) → Option ℚ
  | p :: q :: rest =>
      if p.2 = 0 then some p.1
      else if p.2 * q.2 < 0 then some (p.1 + (q.1 - p.1) * (-p.2) / (q.2 - p.2))
      else first_zero_crossing (q :: rest)
  | _ => none

end Fig6

namespace Fig7

/-- Embedding of the loop of `last_zero_crossing` from
`src/scripts/make_fig7.py` (lines 14-26): the running result `zc` is
overwritten at every hit and returned when the scan ends. -/
def lastGo : List (ℚ × ℚ) → Option ℚ → Option ℚ
  | p :: q :: rest, zc =>
      if p.2 = 0 then lastGo (q :: rest) (some p.1)
      else if p.2 * q.2 < 0 then
        lastGo (q :: rest) (some (p.1 + (q.1 - p.1) * (-p.2) / (q.2 - p.2)))
      else lastGo (q :: rest) zc
  | _, zc => zc

/-- `last_zero_crossing`: full scan with running result starting at
`None`. -/
def last_zero_crossing (s : List (ℚ × ℚ)) : Option ℚ :=
  lastGo s none

/-- Left-biased choice on optional results, used to relate the running
`zc` accumulator of `last_zero_crossing` to the ALL-mode crossing
list. -/
def optOr : Option ℚ → Option ℚ → Option ℚ
  | some v, _ => some v
  | none, b => b

end Fig7

namespace Closeup

/-- Embedding of the inline zero-crossing loop of
`src/scripts/zero_crossing_AE_closeup.py` (lines 61-70): `zc` starts as
`None`; the loop breaks (returning the freshly assigned `zc`) at the
first exact-zero sample or sign change. -/
def zcLoop : List (ℚ × ℚ) → Option ℚ → Option ℚ
  | p :: q :: rest, zc =>
      if p.2 = 0 then some p.1
      else if p.2 * q.2 < 0 then some (p.1 + (q.1 - p.1) * (-p.2) / (q.2 - p.2))
      else zcLoop (q :: rest) zc
  | _, zc => zc

/-- The whole inline scan: loop started with `zc = None`. -/
def zc_scan (s : List (ℚ × ℚ)) : Option ℚ :=
  zcLoop s none

end Closeup

theorem exists_nat_split {P : ℕ → Prop} : (∃ i, P i) ↔ P 0 ∨ ∃ i, P (i + 1) := by
  constructor
  · rintro ⟨i, hi⟩
    cases i with
    | zero => exact Or.inl hi
    | succ n => exact Or.inr ⟨n, hi⟩
  · rintro (h | ⟨i, hi⟩)
    exacts [⟨0, h⟩, ⟨i + 1, hi⟩]

namespace SigmaCumEnd

theorem zcGo_mem_iff (s : List (ℚ × ℚ)) (k : ℕ) (x0 : ℚ) (j : ℕ) :
    (x0, j) ∈ zcGo s k ↔
      ∃ i p q t, s.drop i = p :: q :: t ∧ j = k + i ∧ segHit p q x0 := by
  induction s generalizing k with
  | nil => simp [zcGo]
  | cons a s ih =>
    cases s with
    | nil =>
      simp only [zcGo, List.not_mem_nil, false_iff]
      rintro ⟨i, p, q, t, hd, -, -⟩
      have := congrArg List.length hd
      simp [List.length_drop] at this
      omega
    | cons b t =>
      have hsplit :
          (∃ i p q u, (a :: b :: t).drop i = p :: q :: u ∧ j = k + i ∧ segHit p q x0) ↔
            (j = k ∧ segHit a b x0) ∨
              (∃ i p q u, (b :: t).drop i = p :: q :: u ∧ j = (k + 1) + i ∧ segHit p q x0) := by
        rw [exists_nat_split]
        constructor
        · rintro (⟨p, q, u, hd, hj, hhit⟩ | ⟨i, p, q, u, hd, hj, hhit⟩)
          · simp only [List.drop_zero, List.cons.injEq] at hd
            obtain ⟨rfl, rfl, rfl⟩ := hd
            exact Or.inl ⟨by omega, hhit⟩
          · exact Or.inr ⟨i, p, q, u, hd, by omega, hhit⟩
        · rintro (⟨hj, hhit⟩ | ⟨i, p, q, u, hd, hj, hhit⟩)
          · exact Or.inl ⟨a, b, t, by simp, by omega, hhit⟩
          · exact Or.inr ⟨i, p, q, u, hd, by omega, hhit⟩
      rw [hsplit]
      by_cases ha : a.2 = 0
      · rw [show zcGo (a :: b :: t) k = (a.1, k) :: zcGo (b :: t) (k + 1) by
          simp only [zcGo]; rw [if_pos ha]]
        simp only [List.mem_cons, Prod.mk.injEq, ih]
        constructor
        · rintro (⟨rfl, rfl⟩ | h)
          · exact Or.inl ⟨rfl, Or.inl ⟨ha, rfl⟩⟩
          · exact Or.inr h
        · rintro (⟨rfl, (⟨-, rfl⟩ | ⟨hne, -, -⟩)⟩ | h)
          · exact Or.inl ⟨rfl, rfl⟩
          · exact absurd ha hne
          · exact Or.inr h
      · by_cases hlt : a.2 * b.2 < 0
        · rw [show zcGo (a :: b :: t) k
              = (a.1 + (b.1 - a.1) * (-a.2) / (b.2 - a.2), k) :: zcGo (b :: t) (k + 1) by
            simp only [zcGo]; rw [if_neg ha, if_pos hlt]]
          simp only [List.mem_cons, Prod.mk.injEq, ih]
          constructor
          · rintro (⟨rfl, rfl⟩ | h)
            · exact Or.inl ⟨rfl, Or.inr ⟨ha, hlt, rfl⟩⟩
            · exact Or.inr h
          · rintro (⟨rfl, (⟨h0, -⟩ | ⟨-, -, rfl⟩)⟩ | h)
            · exact absurd h0 ha
            · exact Or.inl ⟨rfl, rfl⟩
            · exact Or.inr h
        · rw [show zcGo (a :: b :: t) k = zcGo (b :: t) (k + 1) by
            simp only [zcGo]; rw [if_neg ha, if_neg hlt]]
          rw [ih]
          constructor
          · exact fun h => Or.inr h
          · rintro (⟨rfl, (⟨h0, -⟩ | ⟨-, hl, -⟩)⟩ | h)
            · exact absurd h0 ha
            · exact absurd hl hlt
            · exact h

theorem zcGo_mem_iff_get (s : List (ℚ × ℚ)) (k : ℕ) (i : ℕ) (x0 : ℚ)
    (h : i + 1 < s.length) :
    (x0, k + i) ∈ zcGo s k ↔
      segHit (s.get ⟨i, Nat.lt_of_succ_lt h⟩) (s.get ⟨i + 1, h⟩) x0 := by
  rw [zcGo_mem_iff]
  have hdrop :
      s.drop i = s.get ⟨i, Nat.lt_of_succ_lt h⟩ :: s.get ⟨i + 1, h⟩ :: s.drop (i + 2) := by
    rw [List.drop_eq_getElem_cons (Nat.lt_of_succ_lt h)]
    rw [List.drop_eq_getElem_cons h]
    simp [List.get_eq_getElem]
  constructor
  · rintro ⟨i', p, q, t, hd, hj, hhit⟩
    obtain rfl : i' = i := by omega
    rw [hdrop] at hd
    obtain ⟨rfl, rfl, -⟩ := List.cons.injEq .. ▸ hd
    exact hhit
  · intro hhit
    exact ⟨i, _, _, _, hdrop, rfl, hhit⟩

theorem zcGo_index_ge (s : List (ℚ × ℚ)) (k : ℕ) :
    ∀ c ∈ zcGo s k, k ≤ c.2 := by
  induction s generalizing k with
  | nil => simp [zcGo]
  | cons a s ih =>
    cases s with
    | nil => simp [zcGo]
    | cons b t =>
      intro c hc
      simp only [zcGo] at hc
      split_ifs at hc with h1 h2
      · rcases List.mem_cons.mp hc with rfl | hc
        · exact le_refl _
        · exact le_trans (Nat.le_succ _) (ih (k + 1) c hc)
      · rcases List.mem_cons.mp hc with rfl | hc
        · exact le_refl _
        · exact le_trans (Nat.le_succ _) (ih (k + 1) c hc)
      · exact le_trans (Nat.le_succ _) (ih (k + 1) c hc)

theorem zcGo_countP_le_one (s : List (ℚ × ℚ)) (k : ℕ) (j : ℕ) :
    (zcGo s k).countP (fun c => c.2 == j) ≤ 1 := by
  induction s generalizing k with
  | nil => simp [zcGo]
  | cons a s ih =>
    cases s with
    | nil => simp [zcGo]
    | cons b t =>
      have htail0 : (zcGo (b :: t) (k + 1)).countP (fun c => c.2 == k) = 0 := by
        rw [List.countP_eq_zero]
        intro c hc
        have := zcGo_index_ge (b :: t) (k + 1) c hc
        simp only [beq_iff_eq]
        omega
      simp only [zcGo]
      split_ifs with h1 h2
      · rw [List.countP_cons]
        by_cases hj : k = j
        · subst hj
          rw [htail0]
          simp
        · simp only [beq_iff_eq, hj, if_false]
          simpa using ih (k + 1)
      · rw [List.countP_cons]
        by_cases hj : k = j
        · subst hj
          rw [htail0]
          simp
        · simp only [beq_iff_eq, hj, if_false]
          simpa using ih (k + 1)
      · exact ih (k + 1)

theorem interp_mem_Icc (xi xj yi yj : ℚ) (hs : yi * yj < 0) (hx : xi ≤ xj) :
    xi ≤ xi + (xj - xi) * (-yi) / (yj - yi) ∧
      xi + (xj - xi) * (-yi) / (yj - yi) ≤ xj := by
  have ht : 0 ≤ (-yi) / (yj - yi) ∧ (-yi) / (yj - yi) ≤ 1 := by
    rcases mul_neg_iff.mp hs with ⟨hyi, hyj⟩ | ⟨hyi, hyj⟩
    · constructor
      · rw [div_nonneg_iff]
        exact Or.inr ⟨by linarith, by linarith⟩
      · rw [div_le_one_iff]
        exact Or.inr (Or.inr ⟨by linarith, by linarith⟩)
    · constructor
      · rw [div_nonneg_iff]
        exact Or.inl ⟨by linarith, by linarith⟩
      · rw [div_le_one_iff]
        exact Or.inl ⟨by linarith, by linarith⟩
  obtain ⟨ht0, ht1⟩ := ht
  rw [mul_div_assoc]
  constructor
  · nlinarith
  · nlinarith

theorem head_fst_bound (T : List (ℚ × ℕ)) (bound : ℚ)
    (h : ∀ c ∈ T, bound ≤ c.1) :
    ∀ y ∈ (T.map Prod.fst).head?, bound ≤ y := by
  cases T with
  | nil => simp
  | cons c T' =>
    intro y hy
    simp only [List.map_cons, List.head?_cons, Option.mem_def, Option.some.injEq] at hy
    subst hy
    exact h c (List.mem_cons_self c T')

theorem zcGo_sorted (s : List (ℚ × ℚ)) (k : ℕ)
    (hx : List.Chain' (· ≤ ·) (s.map Prod.fst)) :
    List.Chain' (· ≤ ·) ((zcGo s k).map Prod.fst) ∧
      ∀ c ∈ zcGo s k, ∀ p ∈ s.head?, p.1 ≤ c.1 := by
  induction s generalizing k with
  | nil => simp [zcGo]
  | cons a s ih =>
    cases s with
    | nil => simp [zcGo]
    | cons b t =>
      have hab : a.1 ≤ b.1 := (List.chain'_cons.mp hx).1
      have hx' : List.Chain' (· ≤ ·) ((b :: t).map Prod.fst) :=
        (List.chain'_cons.mp hx).2
      obtain ⟨ihchain, ihbound⟩ := ih (k + 1) hx'
      have hbbound : ∀ c ∈ zcGo (b :: t) (k + 1), b.1 ≤ c.1 := by
        intro c hc
        exact ihbound c hc b (by simp)
      simp only [zcGo]
      split_ifs with h1 h2
      · constructor
        · rw [List.map_cons]
          rw [List.chain'_cons']
          exact ⟨head_fst_bound _ _ (fun c hc => le_trans hab (hbbound c hc)), ihchain⟩
        · intro c hc p hp
          simp only [List.head?_cons, Option.mem_def, Option.some.injEq] at hp
          subst hp
          rcases List.mem_cons.mp hc with rfl | hc
          · exact le_refl _
          · exact le_trans hab (hbbound c hc)
      · have hv := interp_mem_Icc a.1 b.1 a.2 b.2 h2 hab
        constructor
        · rw [List.map_cons]
          rw [List.chain'_cons']
          refine ⟨head_fst_bound _ _ (fun c hc => le_trans hv.2 (hbbound c hc)), ihchain⟩
        · intro c hc p hp
          simp only [List.head?_cons, Option.mem_def, Option.some.injEq] at hp
          subst hp
          rcases List.mem_cons.mp hc with rfl | hc
          · exact hv.1
          · exact le_trans hab (hbbound c hc)
      · refine ⟨ihchain, ?_⟩
        intro c hc p hp
        simp only [List.head?_cons, Option.mem_def, Option.some.injEq] at hp
        subst hp
        exact le_trans hab (hbbound c hc)

theorem zcGo_nil_of_no_hit (s : List (ℚ × ℚ)) (k : ℕ)
    (hsign : List.Chain' (fun p q : ℚ × ℚ => ¬(p.2 * q.2 < 0)) s)
    (hzero : ∀ p ∈ s.dropLast, p.2 ≠ 0) :
    zcGo s k = [] := by
  induction s generalizing k with
  | nil => simp [zcGo]
  | cons a s ih =>
    cases s with
    | nil => simp [zcGo]
    | cons b t =>
      have ha : a.2 ≠ 0 := by
        apply hzero
        rw [List.dropLast_cons₂]
        exact List.mem_cons_self _ _
      have hab : ¬(a.2 * b.2 < 0) := (List.chain'_cons.mp hsign).1
      simp only [zcGo]
      rw [if_neg ha, if_neg hab]
      apply ih
      · exact (List.chain'_cons.mp hsign).2
      · intro p hp
        apply hzero
        rw [List.dropLast_cons₂]
        exact List.mem_cons_of_mem _ hp

theorem zcGoChecked_eq (s : List (ℚ × ℚ)) (k : ℕ) :
    zcGoChecked s k = some (zcGo s k) := by
  induction s generalizing k with
  | nil => simp [zcGoChecked, zcGo]
  | cons a s ih =>
    cases s with
    | nil => simp [zcGoChecked, zcGo]
    | cons b t =>
      simp only [zcGoChecked, zcGo]
      split_ifs with h1 h2 h3
      · rw [ih (k + 1)]; rfl
      · exfalso
        have hb : b.2 = a.2 := by linarith [sub_eq_zero.mp h3]
        rw [hb] at h2
        nlinarith
      · rw [ih (k + 1)]; rfl
      · exact ih (k + 1)

end SigmaCumEnd

namespace Fig23

theorem first_eq_head (s : List (ℚ × ℚ)) (k : ℕ) :
    first_zero_crossing_linear s =
      ((SigmaCumEnd.zcGo s k).head?).map Prod.fst := by
  induction s generalizing k with
  | nil => simp [first_zero_crossing_linear, SigmaCumEnd.zcGo]
  | cons a s ih =>
    cases s with
    | nil => simp [first_zero_crossing_linear, SigmaCumEnd.zcGo]
    | cons b t =>
      simp only [first_zero_crossing_linear, SigmaCumEnd.zcGo]
      split_ifs with h1 h2
      · simp
      · simp
      · exact ih (k + 1)

end Fig23

namespace Fig7

theorem getLast?_cons_fst (v : ℚ × ℕ) (l : List (ℚ × ℕ)) :
    ((v :: l).getLast?).map Prod.fst = optOr ((l.getLast?).map Prod.fst) (some v.1) := by
  induction l generalizing v with
  | nil => simp [optOr]
  | cons b l ih =>
    rw [List.getLast?_cons_cons]
    rw [ih b]
    cases hb : (l.getLast?).map Prod.fst with
    | none => simp [optOr]
    | some w => simp [optOr]

theorem lastGo_eq (s : List (ℚ × ℚ)) (k : ℕ) (acc : Option ℚ) :
    lastGo s acc = optOr (((SigmaCumEnd.zcGo s k).getLast?).map Prod.fst) acc := by
  induction s generalizing k acc with
  | nil => simp [lastGo, SigmaCumEnd.zcGo, optOr]
  | cons a s ih =>
    cases s with
    | nil => simp [lastGo, SigmaCumEnd.zcGo, optOr]
    | cons b t =>
      simp only [lastGo, SigmaCumEnd.zcGo]
      split_ifs with h1 h2
      · rw [ih (k + 1), getLast?_cons_fst]
        cases h : ((SigmaCumEnd.zcGo (b :: t) (k + 1)).getLast?).map Prod.fst with
        | none => simp [optOr]
        | some w => simp [optOr]
      · rw [ih (k + 1), getLast?_cons_fst]
        cases h : ((SigmaCumEnd.zcGo (b :: t) (k + 1)).getLast?).map Prod.fst with
        | none => simp [optOr]
        | some w => simp [optOr]
      · rw [ih (k + 1)]

theorem last_eq_getLast (s : List (ℚ × ℚ)) :
    last_zero_crossing s =
      ((SigmaCumEnd.zero_crossings_linear_interp s).getLast?).map Prod.fst := by
  rw [last_zero_crossing, lastGo_eq s 0 none, SigmaCumEnd.zero_crossings_linear_interp]
  cases h : ((SigmaCumEnd.zcGo s 0).getLast?).map Prod.fst with
  | none => simp [optOr]
  | some w => simp [optOr]

end Fig7

namespace AERMST

theorem aermst_eq_fig23 (s : List (ℚ × ℚ)) :
    first_zero_crossing_linear s = Fig23.first_zero_crossing_linear s := by
  induction s with
  | nil => rfl
  | cons a s ih =>
    cases s with
    | nil => rfl
    | cons b t =>
      simp only [first_zero_crossing_linear, Fig23.first_zero_crossing_linear]
      split_ifs with h1 h2
      · rfl
      · rfl
      · exact ih

end AERMST

namespace Fig6

theorem fig6_eq_fig23 (s : List (ℚ × ℚ)) :
    first_zero_crossing s = Fig23.first_zero_crossing_linear s := by
  induction s with
  | nil => rfl
  | cons a s ih =>
    cases s with
    | nil => rfl
    | cons b t =>
      simp only [first_zero_crossing, Fig23.first_zero_crossing_linear]
      split_ifs with h1 h2
      · rfl
      · rfl
      · exact ih

end Fig6

namespace Closeup

theorem scan_eq_fig23 (s : List (ℚ × ℚ)) :
    zc_scan s = Fig23.first_zero_crossing_linear s := by
  rw [zc_scan]
  induction s with
  | nil => rfl
  | cons a s ih =>
    cases s with
    | nil => rfl
    | cons b t =>
      simp only [zcLoop, Fig23.first_zero_crossing_linear]
      split_ifs with h1 h2
      · rfl
      · rfl
      · exact ih

end Closeup

example :
    SigmaCumEnd.zero_crossings_linear_interp [((0 : ℚ), (-1 : ℚ)), (1, 0), (2, 1)]
      = [(1, 1)] := by
  norm_num [SigmaCumEnd.zero_crossings_linear_interp, SigmaCumEnd.zcGo]

example :
    SigmaCumEnd.zero_crossings_linear_interp [((0 : ℚ), (-2 : ℚ)), (1, 2), (2, -2), (3, 2)]
      = [(1 / 2, 0), (3 / 2, 1), (5 / 2, 2)] := by
  norm_num [SigmaCumEnd.zero_crossings_linear_interp, SigmaCumEnd.zcGo]

example :
    Fig23.first_zero_crossing_linear [((0 : ℚ), (-2 : ℚ)), (1, 2), (2, -2), (3, 2)]
      = some (1 / 2) := by
  norm_num [Fig23.first_zero_crossing_linear]

example :
    Fig7.last_zero_crossing [((0 : ℚ), (-2 : ℚ)), (1, 2), (2, -2), (3, 2)]
      = some (5 / 2) := by
  norm_num [Fig7.last_zero_crossing, Fig7.lastGo]

example :
    SigmaCumEnd.zero_crossings_linear_interp [((0 : ℚ), (1 : ℚ)), (1, 0)] = [] := by
  norm_num [SigmaCumEnd.zero_crossings_linear_interp, SigmaCumEnd.zcGo]

example :
    Fig23.first_zero_crossing_linear [((0 : ℚ), (0 : ℚ)), (1, 1)] = some 0 := by
  norm_num [Fig23.first_zero_crossing_linear]

/-- Claim C1: for every series and segment index `i` in range, the
ALL-mode scan records a crossing `(x0, i)` if and only if `y[i] = 0`
(crossing at `x[i]`) or `y[i] ≠ 0` and `y[i]*y[i+1] < 0` (crossing at the
interpolated point); and each segment contributes at most one crossing. -/
theorem all_mode_segment_rule (s : List (ℚ × ℚ)) (i : ℕ) (x0 : ℚ)
    (h : i + 1 < s.length) :
    ((x0, i) ∈ SigmaCumEnd.zero_crossings_linear_interp s ↔
      ((s.get ⟨i, Nat.lt_of_succ_lt h⟩).2 = 0 ∧
        x0 = (s.get ⟨i, Nat.lt_of_succ_lt h⟩).1) ∨
      ((s.get ⟨i, Nat.lt_of_succ_lt h⟩).2 ≠ 0 ∧
        (s.get ⟨i, Nat.lt_of_succ_lt h⟩).2 * (s.get ⟨i + 1, h⟩).2 < 0 ∧
        x0 = (s.get ⟨i, Nat.lt_of_succ_lt h⟩).1 +
          ((s.get ⟨i + 1, h⟩).1 - (s.get ⟨i, Nat.lt_of_succ_lt h⟩).1) *
            (-(s.get ⟨i, Nat.lt_of_succ_lt h⟩).2) /
            ((s.get ⟨i + 1, h⟩).2 - (s.get ⟨i, Nat.lt_of_succ_lt h⟩).2))) ∧
    (SigmaCumEnd.zero_crossings_linear_interp s).countP (fun c => c.2 == i) ≤ 1 := by
  constructor
  · have hmem := SigmaCumEnd.zcGo_mem_iff_get s 0 i x0 h
    rw [Nat.zero_add] at hmem
    rw [SigmaCumEnd.zero_crossings_linear_interp, hmem]
    exact Iff.rfl
  · exact SigmaCumEnd.zcGo_countP_le_one s 0 i

theorem all_mode_segment_rule_witness :
    ((1 / 2 : ℚ), 0) ∈
      SigmaCumEnd.zero_crossings_linear_interp [((0 : ℚ), (-1 : ℚ)), (1, 1)] :=
  ((all_mode_segment_rule [((0 : ℚ), (-1 : ℚ)), (1, 1)] 0 (1 / 2) (by norm_num)).1).mpr
    (Or.inr (by norm_num))

/-- Claim C2: FIRST mode is the head of ALL mode:
`first_zero_crossing_linear` returns the x-location of the first crossing
of the ALL-mode scan, and `none` exactly when that list is empty. -/
theorem first_refines_all (s : List (ℚ × ℚ)) :
    Fig23.first_zero_crossing_linear s =
        ((SigmaCumEnd.zero_crossings_linear_interp s).head?).map Prod.fst ∧
      (Fig23.first_zero_crossing_linear s = none ↔
        SigmaCumEnd.zero_crossings_linear_interp s = []) := by
  have h := Fig23.first_eq_head s 0
  rw [SigmaCumEnd.zero_crossings_linear_interp]
  refine ⟨h, ?_⟩
  rw [h]
  cases hzc : SigmaCumEnd.zcGo s 0 with
  | nil => simp
  | cons c l => simp

/-- Claim C3: LAST mode is the last element of ALL mode:
`last_zero_crossing` returns the x-location of the last crossing of the
ALL-mode scan, and `none` exactly when that list is empty. -/
theorem last_refines_all (s : List (ℚ × ℚ)) :
    Fig7.last_zero_crossing s =
        ((SigmaCumEnd.zero_crossings_linear_interp s).getLast?).map Prod.fst ∧
      (Fig7.last_zero_crossing s = none ↔
        SigmaCumEnd.zero_crossings_linear_interp s = []) := by
  have h := Fig7.last_eq_getLast s
  refine ⟨h, ?_⟩
  rw [h, SigmaCumEnd.zero_crossings_linear_interp]
  cases hzc : SigmaCumEnd.zcGo s 0 with
  | nil => simp
  | cons c l =>
    rw [Fig7.getLast?_cons_fst]
    cases hl : (l.getLast?).map Prod.fst with
    | none => simp [Fig7.optOr]
    | some w => simp [Fig7.optOr]

/-- Claim C4: on the spec's test series `[(0,-1), (1,0), (2,1)]` the
ALL-mode scan returns exactly one crossing, at `x = 1` with segment
index 1, and no interpolated crossing for either adjacent segment. -/
theorem exact_zero_test_series :
    SigmaCumEnd.zero_crossings_linear_interp [((0 : ℚ), (-1 : ℚ)), (1, 0), (2, 1)]
      = [(1, 1)] := by
  norm_num [SigmaCumEnd.zero_crossings_linear_interp, SigmaCumEnd.zcGo]

/-- Claim C5: if the series' x-values are sorted ascending then the
crossing x-locations returned by the ALL-mode scan are themselves in
ascending (non-decreasing) order. -/
theorem all_mode_output_ascending (s : List (ℚ × ℚ))
    (hx : List.Chain' (· ≤ ·) (s.map Prod.fst)) :
    List.Chain' (· ≤ ·) ((SigmaCumEnd.zero_crossings_linear_interp s).map Prod.fst) :=
  (SigmaCumEnd.zcGo_sorted s 0 hx).1

theorem all_mode_output_ascending_witness :
    List.Chain' (· ≤ ·)
        (([((0 : ℚ), (-2 : ℚ)), (1, 2), (2, -2), (3, 2)] : List (ℚ × ℚ)).map Prod.fst) ∧
      List.Chain' (· ≤ ·)
        ((SigmaCumEnd.zero_crossings_linear_interp
            [((0 : ℚ), (-2 : ℚ)), (1, 2), (2, -2), (3, 2)]).map Prod.fst) :=
  ⟨by norm_num [List.chain'_cons, List.chain'_singleton],
    all_mode_output_ascending _ (by norm_num [List.chain'_cons, List.chain'_singleton])⟩

/-- Claim C6 counterexample: in the series `[(0,1), (1,0)]` the final
sample has `y = 0`, yet the ALL-mode scan reports no crossing at all:
the loop ranges over segment heads only, so a trailing exact zero is
never examined. -/
theorem final_exact_zero_counterexample :
    (([((0 : ℚ), (1 : ℚ)), (1, 0)].get ⟨1, by norm_num⟩).2 = 0) ∧
      SigmaCumEnd.zero_crossings_linear_interp [((0 : ℚ), (1 : ℚ)), (1, 0)] = [] := by
  constructor
  · rfl
  · norm_num [SigmaCumEnd.zero_crossings_linear_interp, SigmaCumEnd.zcGo]

/-- Claim C6 (amended): every exact-zero sample that the scan examines —
i.e. at an index `i` with `i + 1 < length`, so excluding the final
sample — produces a crossing at `x[i]` with segment index `i`. -/
theorem exact_zero_scanned_reported (s : List (ℚ × ℚ)) (i : ℕ)
    (h : i + 1 < s.length) (hy : (s.get ⟨i, Nat.lt_of_succ_lt h⟩).2 = 0) :
    ((s.get ⟨i, Nat.lt_of_succ_lt h⟩).1, i) ∈
      SigmaCumEnd.zero_crossings_linear_interp s := by
  rw [SigmaCumEnd.zero_crossings_linear_interp]
  have hmem := (SigmaCumEnd.zcGo_mem_iff_get s 0 i
    (s.get ⟨i, Nat.lt_of_succ_lt h⟩).1 h).mpr (Or.inl ⟨hy, rfl⟩)
  rwa [Nat.zero_add] at hmem

theorem exact_zero_scanned_reported_witness :
    ((1 : ℚ), 1) ∈
      SigmaCumEnd.zero_crossings_linear_interp [((0 : ℚ), (-1 : ℚ)), (1, 0), (2, 1)] :=
  exact_zero_scanned_reported [((0 : ℚ), (-1 : ℚ)), (1, 0), (2, 1)] 1 (by norm_num) rfl

/-- Claim C7 counterexample: the series `[(0,0), (1,1)]` contains no pair
of consecutive samples with strictly opposite signs, yet FIRST and LAST
return `some 0` (the exact-zero sample), not `none`. -/
theorem no_sign_change_zero_sample_counterexample :
    List.Chain' (fun p q : ℚ × ℚ => ¬(p.2 * q.2 < 0)) [((0 : ℚ), (0 : ℚ)), (1, 1)] ∧
      Fig23.first_zero_crossing_linear [((0 : ℚ), (0 : ℚ)), (1, 1)] = some 0 ∧
      Fig7.last_zero_crossing [((0 : ℚ), (0 : ℚ)), (1, 1)] = some 0 := by
  refine ⟨?_, ?_, ?_⟩
  · norm_num [List.chain'_cons, List.chain'_singleton]
  · norm_num [Fig23.first_zero_crossing_linear]
  · norm_num [Fig7.last_zero_crossing, Fig7.lastGo]

/-- Claim C7 (amended): if no pair of consecutive samples has strictly
opposite signs and additionally no scanned sample (all but the last) is
exactly zero, then FIRST and LAST return `none`; absence of a crossing
is the legitimate result, not an error (both functions are total). -/
theorem no_hit_first_last_none (s : List (ℚ × ℚ))
    (hsign : List.Chain' (fun p q : ℚ × ℚ => ¬(p.2 * q.2 < 0)) s)
    (hzero : ∀ p ∈ s.dropLast, p.2 ≠ 0) :
    Fig23.first_zero_crossing_linear s = none ∧ Fig7.last_zero_crossing s = none := by
  have hnil := SigmaCumEnd.zcGo_nil_of_no_hit s 0 hsign hzero
  constructor
  · rw [Fig23.first_eq_head s 0, hnil]
    rfl
  · rw [Fig7.last_eq_getLast, SigmaCumEnd.zero_crossings_linear_interp, hnil]
    rfl

theorem no_hit_first_last_none_witness :
    Fig23.first_zero_crossing_linear [((0 : ℚ), (1 : ℚ)), (1, 2)] = none ∧
      Fig7.last_zero_crossing [((0 : ℚ), (1 : ℚ)), (1, 2)] = none :=
  no_hit_first_last_none _ (by norm_num [List.chain'_cons, List.chain'_singleton])
    (by
      intro p hp
      simp only [List.dropLast] at hp
      simp at hp
      subst hp
      norm_num)

/-- Claim C8: for every series of length 0 or 1, the ALL-mode scan
returns the empty list and the FIRST/LAST scans (including the inline
close-up loop) return `none`; all are total functions, so no exception
and no out-of-range access occur. -/
theorem short_series_empty (s : List (ℚ × ℚ)) (h : s.length ≤ 1) :
    SigmaCumEnd.zero_crossings_linear_interp s = [] ∧
      Fig23.first_zero_crossing_linear s = none ∧
      Fig7.last_zero_crossing s = none ∧
      Closeup.zc_scan s = none := by
  match s with
  | [] => exact ⟨rfl, rfl, rfl, rfl⟩
  | [p] => exact ⟨rfl, rfl, rfl, rfl⟩
  | p :: q :: t =>
    exfalso
    simp [List.length_cons] at h

theorem short_series_empty_witness :
    (([((0 : ℚ), (5 : ℚ))] : List (ℚ × ℚ)).length ≤ 1) ∧
      (SigmaCumEnd.zero_crossings_linear_interp [((0 : ℚ), (5 : ℚ))] = [] ∧
        Fig23.first_zero_crossing_linear [((0 : ℚ), (5 : ℚ))] = none ∧
        Fig7.last_zero_crossing [((0 : ℚ), (5 : ℚ))] = none ∧
        Closeup.zc_scan [((0 : ℚ), (5 : ℚ))] = none) :=
  ⟨by norm_num, short_series_empty _ (by norm_num)⟩

/-- Claim C9: the division in the interpolated branch is reached only
under the branch condition `y[i]*y[i+1] < 0`, which forces
`y[i+1] - y[i] ≠ 0`: a division-checked variant of the scan, whose error
branch fires exactly when the denominator is zero, never fails and
computes the same crossing list on every input. -/
theorem division_error_branch_unreachable (s : List (ℚ × ℚ)) :
    SigmaCumEnd.zero_crossings_checked s =
      some (SigmaCumEnd.zero_crossings_linear_interp s) :=
  SigmaCumEnd.zcGoChecked_eq s 0

/-- Claim C10: the four FIRST-variant implementations duplicated across
the scripts compute the same function: on every series they return the
same optional crossing x-location. -/
theorem first_variants_agree (s : List (ℚ × ℚ)) :
    AERMST.first_zero_crossing_linear s = Fig23.first_zero_crossing_linear s ∧
      Fig6.first_zero_crossing s = Fig23.first_zero_crossing_linear s ∧
      Closeup.zc_scan s = Fig23.first_zero_crossing_linear s :=
  ⟨AERMST.aermst_eq_fig23 s, Fig6.fig6_eq_fig23 s, Closeup.scan_eq_fig23 s⟩
